import Mathlib

/-!
Verification of the `ctx-tools` context manager core.

This file gives a shallow embedding, in Lean 4, of the data model and the
operations of the `ctx` package (`src/ctx/models.py`, `src/ctx/core.py`,
`src/ctx/plugins.py`) and proves or refutes the frozen claims about them.

Modelling conventions, used throughout:
* Python `dict`s (insertion ordered, unique keys) are modelled as
  association lists `List (String × α)`; insertion of a fresh key appends,
  assignment to a present key updates in place, deletion removes the entry,
  and `next(iter(d), None)` is the head key.
* `datetime` values are modelled by an abstract instant `DateTime` (a Nat
  tick count).  `datetime.isoformat` / `datetime.fromisoformat` form a
  bijection between datetimes and their ISO-8601 strings (per the Python
  documentation), so a serialized timestamp field is modelled by the
  `DateTime` it denotes.
* JSON-able "arbitrary values" (`Dict[str, Any]` metadata and plugin data)
  are modelled by a scalar JSON value type `JVal`; `to_dict`/`from_dict`
  pass these fields through unchanged, so their precise shape is inert.
* Python truthiness of an optional string (`if self.data["active"]:`,
  `if prev:` …) is `false` exactly for `None` and for the empty string;
  it is modelled explicitly by `truthyOpt`.
* `datetime.now()` is passed in as an explicit `now : DateTime` argument
  to the operations that stamp times.
-/

/-- An instant, standing for a Python `datetime` (an abstract tick count). -/
structure DateTime where
  tick : Nat
deriving DecidableEq, Repr

/-- A scalar JSON-able value, modelling the `Any`-typed values stored in
`metadata` and `plugin_data`.  `to_dict`/`from_dict` pass these through
unchanged, so scalars suffice for the serialization model. -/
inductive JVal where
  | jnull : JVal
  | jbool : Bool → JVal
  | jnum : Int → JVal
  | jstr : String → JVal
deriving DecidableEq, Repr

/-- `metadata` field type: a Python `Dict[str, Any]`. -/
abbrev Meta := List (String × JVal)

/-- `plugin_data` field type: plugin name → `Dict[str, Any]`. -/
abbrev PData := List (String × List (String × JVal))

/-- `ContextState` enumeration from `models.py` (emoji glyphs omitted:
no claim concerns them). -/
inductive ContextState where
  | ACTIVE | IN_PROGRESS | ON_HOLD | IN_REVIEW | BLOCKED
  | PENDING | COMPLETED | CANCELLED | CUSTOM
deriving DecidableEq, Repr

/-- The `value` string of each state, as declared in the enum. -/
def ContextState.value : ContextState → String
  | .ACTIVE => "active"
  | .IN_PROGRESS => "in-progress"
  | .ON_HOLD => "on-hold"
  | .IN_REVIEW => "in-review"
  | .BLOCKED => "blocked"
  | .PENDING => "pending"
  | .COMPLETED => "completed"
  | .CANCELLED => "cancelled"
  | .CUSTOM => "custom"

/-- `ContextState.from_string`: scan the enum members in declaration order
and return the first whose value matches; fall back to `CUSTOM`. -/
def ContextState.from_string (v : String) : ContextState :=
  if v = "active" then .ACTIVE
  else if v = "in-progress" then .IN_PROGRESS
  else if v = "on-hold" then .ON_HOLD
  else if v = "in-review" then .IN_REVIEW
  else if v = "blocked" then .BLOCKED
  else if v = "pending" then .PENDING
  else if v = "completed" then .COMPLETED
  else if v = "cancelled" then .CANCELLED
  else .CUSTOM

/-- `Note` dataclass from `models.py`. -/
structure Note where
  timestamp : DateTime
  text : String
  tags : List String
deriving DecidableEq, Repr

/-- The document (dict) form of a `Note`, as produced by `Note.to_dict`.
The `timestamp` entry holds the ISO-8601 string, modelled by the
`DateTime` it denotes. -/
structure NoteDict where
  timestamp : DateTime
  text : String
  tags : List String
deriving DecidableEq, Repr

/-- `Note.to_dict`. -/
def Note.to_dict (n : Note) : NoteDict :=
  { timestamp := n.timestamp, text := n.text, tags := n.tags }

/-- `Note.from_dict` (`tags` defaults to `[]` when absent; `to_dict`
always emits the key, so the document form carries it). -/
def Note.from_dict (d : NoteDict) : Note :=
  { timestamp := d.timestamp, text := d.text, tags := d.tags }

/-- `Context` dataclass from `models.py`. -/
structure Ctx where
  name : String
  description : String
  state : ContextState
  custom_emoji : Option String
  created_at : DateTime
  updated_at : DateTime
  notes : List Note
  metadata : Meta
  tags : List String
  plugin_data : PData
deriving DecidableEq, Repr

/-- The document (dict) form of a `Context`, as produced by
`Context.to_dict`: `state` is serialized to its value string, timestamps
to ISO-8601 strings (modelled by the `DateTime` they denote), and the
remaining fields are carried through. -/
structure CtxDict where
  name : String
  description : String
  state : String
  custom_emoji : Option String
  created_at : DateTime
  updated_at : DateTime
  notes : List NoteDict
  metadata : Meta
  tags : List String
  plugin_data : PData
deriving DecidableEq, Repr

/-- `Context.to_dict`. -/
def Ctx.to_dict (c : Ctx) : CtxDict :=
  { name := c.name
    description := c.description
    state := c.state.value
    custom_emoji := c.custom_emoji
    created_at := c.created_at
    updated_at := c.updated_at
    notes := c.notes.map Note.to_dict
    metadata := c.metadata
    tags := c.tags
    plugin_data := c.plugin_data }

/-- `Context.from_dict` (the `.get` defaults of the source are never taken
here because `to_dict` always emits every key; the document type carries
all fields). -/
def Ctx.from_dict (d : CtxDict) : Ctx :=
  { name := d.name
    description := d.description
    state := ContextState.from_string d.state
    custom_emoji := d.custom_emoji
    created_at := d.created_at
    updated_at := d.updated_at
    notes := d.notes.map Note.from_dict
    metadata := d.metadata
    tags := d.tags
    plugin_data := d.plugin_data }

/-- `Context.get_recent_notes(count=5)`: the Python slice
`self.notes[-count:] if self.notes else []`.  For `count = 0` the slice is
`notes[0:]`, i.e. the whole list; for `count ≥ 1` the negative index
clamps at 0, giving the last `min count length` elements. -/
def get_recent_notes (notes : List Note) (count : Nat := 5) : List Note :=
  if notes = [] then []
  else if count = 0 then notes
  else notes.drop (notes.length - count)

/-- Python truthiness of an optional string: `None` and `""` are falsy. -/
def truthyOpt : Option String → Bool
  | none => false
  | some s => s ≠ ""

/-- `Context.set_state(state, custom_emoji=None)` from `models.py`.
The `if custom_emoji:` test is Python truthiness. -/
def Ctx.set_state (c : Ctx) (st : ContextState) (ce : Option String)
    (now : DateTime) : Ctx :=
  let c1 := { c with state := st }
  let c2 :=
    if truthyOpt ce then { c1 with custom_emoji := ce }
    else if st ≠ ContextState.CUSTOM then { c1 with custom_emoji := none }
    else c1
  { c2 with updated_at := now }

/-- `ContextStack` dataclass from `models.py`. -/
structure CtxStack where
  stack : List String
  max_size : Nat
deriving DecidableEq, Repr

/-- `ContextStack.push`: remove the name if already present (Python
`list.remove`, first occurrence), append at the tail, then drop the head
once if the length now exceeds `max_size`. -/
def CtxStack.push (st : CtxStack) (x : String) : CtxStack :=
  let s1 := if x ∈ st.stack then st.stack.erase x else st.stack
  let s2 := s1 ++ [x]
  if st.max_size < s2.length then { st with stack := s2.drop 1 }
  else { st with stack := s2 }

/-- `ContextStack.pop`: remove and return the tail entry, or `none` on an
empty stack (which is left unchanged). -/
def CtxStack.spop (st : CtxStack) : Option String × CtxStack :=
  match st.stack.getLast? with
  | none => (none, st)
  | some p => (some p, { st with stack := st.stack.dropLast })

/-- Python dict lookup `d.get(k)` on an insertion-ordered association
list with unique keys. -/
def dlookup {α : Type} : List (String × α) → String → Option α
  | [], _ => none
  | p :: rest, k => if p.1 = k then some p.2 else dlookup rest k

/-- Python dict assignment `d[k] = v`: update in place if the key is
present, else append. -/
def dinsert {α : Type} : List (String × α) → String → α → List (String × α)
  | [], k, v => [(k, v)]
  | p :: rest, k, v => if p.1 = k then (k, v) :: rest else p :: dinsert rest k v

/-- Python dict deletion `del d[k]`: remove the entry with the key. -/
def ddelete {α : Type} : List (String × α) → String → List (String × α)
  | [], _ => []
  | p :: rest, k => if p.1 = k then rest else p :: ddelete rest k

/-- The persisted dataset owned by the manager: `self.data` together with
the in-memory `self.stack` (`_save` writes the stack back into the data
before persisting, so one record suffices). -/
structure MState where
  contexts : List (String × CtxDict)
  active : Option String
  stack : CtxStack
deriving DecidableEq, Repr

/-- A registered plugin, seen through its lifecycle hooks.  A hook takes
the context object and returns the object as left by the call together
with `some e` when the call raised exception `e` (in-place mutations made
before a raise survive, so the context is returned in both cases). -/
structure PluginH where
  pname : String
  created : Ctx → Ctx × Option String
  switched : Ctx → Ctx × Option String
  deleted : Ctx → Ctx × Option String
  imported : Ctx → Ctx × Option String
  stateChanged : ContextState → Ctx → Ctx × Option String
  noteAdded : Note → Ctx → Ctx × Option String

/-- The dispatcher loop shared by all `PluginManager.on_*` methods: call
the selected hook of every plugin in order, catching each exception and
turning it into a printed report, never propagating it. -/
def notifyHooks (f : PluginH → Ctx → Ctx × Option String) (ev : String) :
    List PluginH → Ctx → Ctx × List String
  | [], c => (c, [])
  | p :: rest, c =>
    let r := f p c
    let rr := notifyHooks f ev rest r.1
    (rr.1,
      (match r.2 with
        | some e => ["Plugin " ++ p.pname ++ " error in " ++ ev ++ ": " ++ e]
        | none => []) ++ rr.2)

/-- The `Context(...)` construction performed by `ContextManager.create`
(dataclass defaults, `tags or []` and `metadata or {}` resolved). -/
def initCtx (now : DateTime) (name desc : String) (tags : List String)
    (md : Meta) : Ctx :=
  { name := name
    description := desc
    state := .ACTIVE
    custom_emoji := none
    created_at := now
    updated_at := now
    notes := []
    metadata := md
    tags := tags
    plugin_data := [] }

/-- `ContextManager.create`: reject an existing name, build the context,
run the `on_context_created` hooks (which may mutate it), then store its
serialization, make it active and save.  Returns the saved state, the
(hook-mutated) context and the hook error reports. -/
def mcreate (ps : List PluginH) (now : DateTime) (s : MState)
    (name desc : String) (tags : List String) (md : Meta) :
    Except String (MState × Ctx × List String) :=
  if (dlookup s.contexts name).isSome then
    .error ("Context '" ++ name ++ "' already exists")
  else
    let c0 := initCtx now name desc tags md
    let r := notifyHooks (fun p => p.created) "on_context_created" ps c0
    let s1 : MState :=
      { contexts := dinsert s.contexts name (Ctx.to_dict r.1)
        active := some name
        stack := s.stack }
    .ok (s1, r.1, r.2)

/-- `ContextManager.get`: pure lookup, deserializing the stored document. -/
def mget (s : MState) (name : String) : Option Ctx :=
  (dlookup s.contexts name).map Ctx.from_dict

/-- Stable insertion (descending on `updated_at`) used to model Python's
stable `sorted(key=updated_at, reverse=True)`: an element is placed
before the first strictly older element, after any of equal age. -/
def insertByUpdated (c : Ctx) : List Ctx → List Ctx
  | [] => [c]
  | d :: ds =>
    if d.updated_at.tick < c.updated_at.tick then c :: d :: ds
    else d :: insertByUpdated c ds

/-- Stable sort by `updated_at` descending (extensionally equal to
Python's stable `sorted(..., reverse=True)`, which is determined by the
comparator plus stability). -/
def sortByUpdated (l : List Ctx) : List Ctx :=
  l.foldl (fun acc c => insertByUpdated c acc) []

/-- `ContextManager.list`: all stored contexts, deserialized in dict
insertion order, sorted by `updated_at` descending (stable). -/
def mlist (s : MState) : List Ctx :=
  sortByUpdated (s.contexts.map (fun p => Ctx.from_dict p.2))

/-- The stack update performed by `ContextManager.switch`: push the
current active name, but only when it is truthy (`if self.data["active"]`)
and differs from the target. -/
def switchStack (s : MState) (name : String) : CtxStack :=
  match s.active with
  | some a => if a ≠ "" ∧ a ≠ name then s.stack.push a else s.stack
  | none => s.stack

/-- `ContextManager.switch`: reject a missing name; push the current
active name (only when it is truthy and differs from the target), set the
target active, save, then deserialize the target, run the
`on_context_switched` hooks on that fresh copy and return it.  The hooks
run after the save and their mutations never reach the stored data. -/
def mswitch (ps : List PluginH) (s : MState) (name : String) :
    Except String (MState × Ctx × List String) :=
  match dlookup s.contexts name with
  | none => .error ("Context '" ++ name ++ "' not found")
  | some d =>
    let s1 : MState := { s with active := some name, stack := switchStack s name }
    let r := notifyHooks (fun p => p.switched) "on_context_switched" ps
      (Ctx.from_dict d)
    .ok (s1, r.1, r.2)

/-- `ContextManager.delete`: reject a missing name; snapshot the context,
remove its entry, and when it was active pop one stack entry and restore
it if it is a truthy name of a live context, else fall back to the first
remaining context (insertion order) or `none`; save, then run the
`on_context_deleted` hooks on the discarded snapshot. -/
def mdelete (ps : List PluginH) (s : MState) (name : String) :
    Except String (MState × List String) :=
  match dlookup s.contexts name with
  | none => .error ("Context '" ++ name ++ "' not found")
  | some d =>
    let contexts1 := ddelete s.contexts name
    let result : MState :=
      if s.active = some name then
        let pr := s.stack.spop
        let active1 :=
          match pr.1 with
          | some p =>
            if p ≠ "" ∧ (dlookup contexts1 p).isSome then some p
            else contexts1.head?.map Prod.fst
          | none => contexts1.head?.map Prod.fst
        { contexts := contexts1, active := active1, stack := pr.2 }
      else { contexts := contexts1, active := s.active, stack := s.stack }
    let r := notifyHooks (fun p => p.deleted) "on_context_deleted" ps
      (Ctx.from_dict d)
    .ok (result, r.2)

/-- `ContextManager.set_state`: reject a missing name; deserialize,
delegate to the entity mutator, store the serialization, save, then run
the `on_state_changed` hooks on the already-serialized copy. -/
def msetState (ps : List PluginH) (now : DateTime) (s : MState)
    (name : String) (st : ContextState) (ce : Option String) :
    Except String (MState × List String) :=
  match dlookup s.contexts name with
  | none => .error ("Context '" ++ name ++ "' not found")
  | some d =>
    let c := (Ctx.from_dict d).set_state st ce now
    let s1 : MState := { s with contexts := dinsert s.contexts name (Ctx.to_dict c) }
    let r := notifyHooks (fun p => p.stateChanged st) "on_state_changed" ps c
    .ok (s1, r.2)

/-- `ContextManager.add_note`: reject a missing name; deserialize, append
the stamped note (`Context.add_note`), store the serialization, save,
then run the `on_note_added` hooks on the already-serialized copy. -/
def maddNote (ps : List PluginH) (now : DateTime) (s : MState)
    (name text : String) (tags : List String) :
    Except String (MState × List String) :=
  match dlookup s.contexts name with
  | none => .error ("Context '" ++ name ++ "' not found")
  | some d =>
    let c0 := Ctx.from_dict d
    let note : Note := { timestamp := now, text := text, tags := tags }
    let c := { c0 with notes := c0.notes ++ [note], updated_at := now }
    let s1 : MState := { s with contexts := dinsert s.contexts name (Ctx.to_dict c) }
    let r := notifyHooks (fun p => p.noteAdded note) "on_note_added" ps c
    .ok (s1, r.2)

/-- `ContextManager.import_context`: reject an existing name unless
`overwrite`; deserialize, store the (re)serialization, save, then run the
`on_context_imported` hooks on the already-serialized copy.  The active
pointer is not touched. -/
def mimportCtx (ps : List PluginH) (s : MState) (d : CtxDict)
    (overwrite : Bool) : Except String (MState × List String) :=
  if (dlookup s.contexts d.name).isSome ∧ ¬overwrite then
    .error ("Context '" ++ d.name ++ "' already exists")
  else
    let c := Ctx.from_dict d
    let s1 : MState := { s with contexts := dinsert s.contexts d.name (Ctx.to_dict c) }
    let r := notifyHooks (fun p => p.imported) "on_context_imported" ps c
    .ok (s1, r.2)

/-- `ContextManager.pop`: pop the stack tail; if the popped name is
truthy and still live, switch to it (note the nested `switch` may push
the current active name back), else return `none` after the single
attempt.  On an empty stack nothing changes. -/
def mpop (ps : List PluginH) (s : MState) : MState × Option Ctx :=
  let pr := s.stack.spop
  let s1 : MState := { s with stack := pr.2 }
  match pr.1 with
  | none => (s1, none)
  | some p =>
    if p ≠ "" ∧ (dlookup s.contexts p).isSome then
      match mswitch ps s1 p with
      | .ok r => (r.1, some r.2.1)
      | .error _ => (s1, none)
    else (s1, none)

/-- Python substring test `q in s` on code-point lists: `q` occurs as a
contiguous run of `s` (the empty string occurs in everything). -/
def substrB (q : List Char) : List Char → Bool
  | [] => q.isEmpty
  | c :: rest => q.isPrefixOf (c :: rest) || substrB q rest

/-- Python `str.lower()`, modelled as per-code-point lowering of the
string's characters. -/
def strLower (s : String) : List Char := s.toList.map Char.toLower

/-- Python `q in s` on lowered strings. -/
def pyIn (q s : List Char) : Bool := substrB q s

/-- `search`'s name/description test for one context (the query is
lowercased once by the caller in the source; lowering at each use is
extensionally the same). -/
def matchND (q : String) (c : Ctx) : Bool :=
  pyIn (strLower q) (strLower c.name) ||
    pyIn (strLower q) (strLower c.description)

/-- `search`'s note test: some note text contains the query. -/
def matchNote (q : String) (c : Ctx) : Bool :=
  c.notes.any (fun n => pyIn (strLower q) (strLower n.text))

/-- `search`'s tag test: some tag contains the query. -/
def matchTag (q : String) (c : Ctx) : Bool :=
  c.tags.any (fun t => pyIn (strLower q) (strLower t))

/-- A context matches the query if any field does. -/
def matchAny (q : String) (c : Ctx) : Bool :=
  matchND q c || matchNote q c || matchTag q c

/-- What one iteration of the `search` loop appends for a context: the
name/description branch appends once and `continue`s; otherwise the note
loop may append (and `break`), and then the tag loop may append again —
a context matching both a note and a tag is appended twice. -/
def searchContrib (q : String) (c : Ctx) : List Ctx :=
  if matchND q c then [c]
  else (if matchNote q c then [c] else []) ++ (if matchTag q c then [c] else [])

/-- `ContextManager.search`: the loop over `self.list()` appending each
context's contribution in order. -/
def msearch (q : String) (s : MState) : List Ctx :=
  (mlist s).flatMap (searchContrib q)

/- ------------------------------------------------------------------ -/
/- Helper lemmas                                                      -/
/- ------------------------------------------------------------------ -/

theorem from_string_value (st : ContextState) :
    ContextState.from_string st.value = st := by
  cases st <;> decide

theorem note_roundtrip (n : Note) : Note.from_dict (Note.to_dict n) = n := rfl

/-- C7: deserializing the serialization of any `Context` restores every
field: name, description, state, custom emoji, both timestamps, notes,
metadata, tags and plugin data. -/
theorem c7_roundtrip (c : Ctx) : Ctx.from_dict (Ctx.to_dict c) = c := by
  cases c with
  | mk name description state custom_emoji created_at updated_at notes metadata tags plugin_data =>
    simp [Ctx.from_dict, Ctx.to_dict, from_string_value, note_roundtrip,
      List.map_map, Function.comp_def]

/-- The spec's "last `n` notes in chronological order (most recent
last)". -/
def lastNotes (notes : List Note) (n : Nat) : List Note :=
  (notes.reverse.take n).reverse

theorem lastNotes_eq_drop (notes : List Note) (n : Nat) :
    lastNotes notes n = notes.drop (notes.length - n) := by
  unfold lastNotes
  rw [List.reverse_take, List.length_reverse, List.reverse_reverse]

/-- C8 (amended): for every `n ≥ 1`, `get_recent_notes` returns the last
`n` notes in chronological order, or all notes if fewer than `n` exist;
the count defaults to 5.  (At `n = 0` the Python slice `notes[-0:]`
returns all notes instead — see the counterexample.) -/
theorem c8_recent_notes (notes : List Note) (n : Nat) (h : 1 ≤ n) :
    get_recent_notes notes n = lastNotes notes n ∧
      get_recent_notes notes = get_recent_notes notes 5 := by
  refine ⟨?_, rfl⟩
  rw [lastNotes_eq_drop]
  unfold get_recent_notes
  rcases notes with _ | ⟨m, ms⟩
  · simp
  · have hn : n ≠ 0 := by omega
    simp [hn]

/-- Witness for C8: at `n = 3` on a two-note list the code returns both
notes, matching the spec reading. -/
theorem c8_recent_notes_witness :
    get_recent_notes [⟨⟨0⟩, "a", []⟩, ⟨⟨1⟩, "b", []⟩] 3
        = lastNotes [⟨⟨0⟩, "a", []⟩, ⟨⟨1⟩, "b", []⟩] 3 ∧
      get_recent_notes [⟨⟨0⟩, "a", []⟩, ⟨⟨1⟩, "b", []⟩]
        = get_recent_notes [⟨⟨0⟩, "a", []⟩, ⟨⟨1⟩, "b", []⟩] 5 :=
  c8_recent_notes [⟨⟨0⟩, "a", []⟩, ⟨⟨1⟩, "b", []⟩] 3 (by decide)

/-- Counterexample for C8 as stated: the claim includes `n = 0`, where the
last-0-notes reading demands `[]`, but `notes[-0:]` is the whole list. -/
theorem c8_counterexample :
    get_recent_notes [⟨⟨0⟩, "hi", []⟩] 0 = [⟨⟨0⟩, "hi", []⟩] ∧
      lastNotes [⟨⟨0⟩, "hi", []⟩] 0 = [] ∧
      ([⟨⟨0⟩, "hi", []⟩] : List Note) ≠ [] := by
  refine ⟨rfl, rfl, by decide⟩

theorem push_stack_eq (st : CtxStack) (x : String) :
    (st.push x).stack =
      if st.max_size < (st.stack.erase x ++ [x]).length
      then (st.stack.erase x ++ [x]).drop 1
      else st.stack.erase x ++ [x] := by
  by_cases hx : x ∈ st.stack <;>
    simp [CtxStack.push, hx, List.erase_of_not_mem] <;>
    split <;> rfl

theorem push_max_size (st : CtxStack) (x : String) :
    (st.push x).max_size = st.max_size := by
  by_cases hx : x ∈ st.stack <;>
    simp [CtxStack.push, hx] <;>
    split <;> rfl

theorem push_nodup {st : CtxStack} (x : String) (h : st.stack.Nodup) :
    (st.push x).stack.Nodup := by
  rw [push_stack_eq]
  have he : (st.stack.erase x).Nodup := h.erase x
  have hx : x ∉ st.stack.erase x := by
    intro hmem
    exact ((h.mem_erase_iff).mp hmem).1 rfl
  have hnd : (st.stack.erase x ++ [x]).Nodup := by
    rw [List.nodup_append]
    refine ⟨he, List.nodup_singleton x, ?_⟩
    intro a ha hax
    simp only [List.mem_singleton] at hax
    subst hax
    exact hx ha
  split
  · exact (List.drop_sublist 1 _).nodup hnd
  · exact hnd

theorem push_length {st : CtxStack} (x : String)
    (h : st.stack.length ≤ st.max_size) :
    (st.push x).stack.length ≤ st.max_size := by
  rw [push_stack_eq]
  have he : (st.stack.erase x).length ≤ st.stack.length :=
    (List.erase_sublist x st.stack).length_le
  split <;> rename_i hc <;>
    simp only [List.length_drop, List.length_append, List.length_singleton]
      at hc ⊢ <;>
    omega

theorem push_getLast {st : CtxStack} (x : String) (hN : 1 ≤ st.max_size) :
    (st.push x).stack.getLast? = some x := by
  rw [push_stack_eq]
  split
  · rename_i hlt
    rcases he : st.stack.erase x with _ | ⟨e, es⟩
    · rw [he] at hlt
      simp at hlt
      omega
    · simp [List.getLast?_concat]
  · exact List.getLast?_concat _

theorem filter_not_mem_cons {l L : List String} {x : String} (hx : x ∉ l) :
    l.filter (fun y => decide (y ∉ L)) =
      l.filter (fun y => decide (y ∉ x :: L)) :=
  List.filter_congr (fun y hy => by
    have hyx : y ≠ x := fun h => hx (h ▸ hy)
    simp [List.mem_cons, hyx])

theorem filter_erase_cons {l L : List String} {x : String} (hnd : l.Nodup) :
    (l.erase x).filter (fun y => decide (y ∉ L)) =
      l.filter (fun y => decide (y ∉ x :: L)) := by
  rw [hnd.erase_eq_filter, List.filter_filter]
  exact List.filter_congr (fun y hy => by
    by_cases hyx : y = x <;> simp [hyx, List.mem_cons])

theorem length_le_filter_add {t L : List String} (hnd : t.Nodup) :
    t.length ≤ (t.filter (fun y => decide (y ∉ L))).length + L.length := by
  have h1 : t.length =
      (t.filter (fun y => decide (y ∉ L))).length +
        (t.filter (fun y => decide (y ∈ L))).length := by
    rw [← List.countP_eq_length_filter, ← List.countP_eq_length_filter,
      List.length_eq_countP_add_countP (fun y => decide (y ∉ L))]
    congr 1
    exact List.countP_congr (fun a _ => by simp)
  have h2 : (t.filter (fun y => decide (y ∈ L))).length ≤ L.length := by
    apply List.Subperm.length_le
    apply List.Nodup.subperm (hnd.filter _)
    intro a ha
    simpa using List.of_mem_filter ha
  omega

theorem drop_congr_amount {α : Type} {l : List α} {n m : Nat} (h : n = m) :
    l.drop n = l.drop m := by rw [h]

/-- Sliding-window characterization of an arbitrary run of pushes from a
valid stack: the survivors of the initial stack are those not re-pushed,
and everything beyond the most recent `max_size` entries is evicted. -/
theorem foldl_push_window :
    ∀ (L : List String) (st : CtxStack),
      1 ≤ st.max_size → st.stack.Nodup → st.stack.length ≤ st.max_size →
      L.Nodup →
      (L.foldl CtxStack.push st).stack =
        (st.stack.filter (fun y => decide (y ∉ L)) ++ L).drop
          ((st.stack.filter (fun y => decide (y ∉ L))).length + L.length
            - st.max_size) := by
  intro L
  induction L with
  | nil =>
    intro st hN hnd hlen _
    have hf : st.stack.filter (fun y => decide (y ∉ ([] : List String)))
        = st.stack := List.filter_eq_self.mpr (fun a _ => by simp)
    simp only [List.foldl_nil, hf, List.append_nil, List.length_nil,
      Nat.add_zero, Nat.sub_eq_zero_of_le hlen, List.drop_zero]
  | cons x L ih =>
    intro st hN hnd hlen hndL
    have hxL : x ∉ L := (List.nodup_cons.mp hndL).1
    have hndL2 : L.Nodup := (List.nodup_cons.mp hndL).2
    rw [List.foldl_cons,
      ih (st.push x) (by rw [push_max_size]; exact hN) (push_nodup x hnd)
        (by rw [push_max_size]; exact push_length x hlen) hndL2,
      push_max_size]
    by_cases hx : x ∈ st.stack
    · have hpush : (st.push x).stack = st.stack.erase x ++ [x] := by
        rw [push_stack_eq, if_neg]
        rw [List.length_append, List.length_erase_of_mem hx,
          List.length_singleton]
        have := List.length_pos_of_mem hx
        omega
      rw [hpush, List.filter_append, filter_erase_cons hnd]
      have hfx : List.filter (fun y => decide (y ∉ L)) [x] = [x] := by
        simp [hxL]
      rw [hfx, List.append_assoc, List.singleton_append]
      exact drop_congr_amount (by
        simp only [List.length_append, List.length_cons, List.length_nil]
        omega)
    · by_cases hover : st.max_size < st.stack.length + 1
      · have hpush : (st.push x).stack = (st.stack ++ [x]).drop 1 := by
          rw [push_stack_eq, List.erase_of_not_mem hx, if_pos]
          rw [List.length_append, List.length_singleton]
          omega
        obtain ⟨h, t, hst⟩ : ∃ h t, st.stack = h :: t := by
          cases hs : st.stack with
          | nil =>
            rw [hs] at hlen hover
            simp at hover
            omega
          | cons a b => exact ⟨a, b, rfl⟩
        have hndt : t.Nodup := (hst ▸ hnd : (h :: t).Nodup).of_cons
        have hxt : x ∉ t := fun hmem => hx (hst ▸ List.mem_cons_of_mem h hmem)
        rw [hst] at hpush hlen hover ⊢
        have hdrop : ((h :: t) ++ [x]).drop 1 = t ++ [x] := by
          simp
        rw [hpush, hdrop, List.filter_append, filter_not_mem_cons hxt]
        have hfx : List.filter (fun y => decide (y ∉ L)) [x] = [x] := by
          simp [hxL]
        rw [hfx]
        by_cases hh : h ∈ x :: L
        · have hF : List.filter (fun y => decide (y ∉ x :: L)) (h :: t)
              = List.filter (fun y => decide (y ∉ x :: L)) t :=
            List.filter_cons_of_neg (by
              simp only [decide_eq_true_eq, not_not]
              exact hh)
          rw [hF, List.append_assoc, List.singleton_append]
          exact drop_congr_amount (by
            simp only [List.length_append, List.length_cons, List.length_nil]
            omega)
        · have hF : List.filter (fun y => decide (y ∉ x :: L)) (h :: t)
              = h :: List.filter (fun y => decide (y ∉ x :: L)) t :=
            List.filter_cons_of_pos (by
              simp only [decide_eq_true_eq]
              exact hh)
          rw [hF]
          have hGt : t.filter (fun y => decide (y ∉ L))
              = t.filter (fun y => decide (y ∉ x :: L)) :=
            filter_not_mem_cons hxt
          have hcount : t.length ≤
              (t.filter (fun y => decide (y ∉ x :: L))).length + L.length :=
            hGt ▸ length_le_filter_add hndt
          rw [List.cons_append]
          have harith :
              (h :: t.filter (fun y => decide (y ∉ x :: L))).length
                  + (x :: L).length - st.max_size
                = ((t.filter (fun y => decide (y ∉ x :: L)) ++ [x]).length
                    + L.length - st.max_size) + 1 := by
            simp only [List.length_append, List.length_cons, List.length_nil]
              at hover hlen ⊢
            omega
          rw [harith, List.drop_succ_cons, List.append_assoc,
            List.singleton_append]
      · have hpush : (st.push x).stack = st.stack ++ [x] := by
          rw [push_stack_eq, List.erase_of_not_mem hx, if_neg]
          rw [List.length_append, List.length_singleton]
          omega
        rw [hpush, List.filter_append, filter_not_mem_cons hx]
        have hfx : List.filter (fun y => decide (y ∉ L)) [x] = [x] := by
          simp [hxL]
        rw [hfx, List.append_assoc, List.singleton_append]
        exact drop_congr_amount (by
          simp only [List.length_append, List.length_cons, List.length_nil]
          omega)

theorem foldl_push_of_distinct (L : List String) (st : CtxStack)
    (hN : 1 ≤ st.max_size) (hnd : st.stack.Nodup)
    (hlen : st.stack.length ≤ st.max_size) (hndL : L.Nodup)
    (hLlen : st.max_size ≤ L.length) :
    (L.foldl CtxStack.push st).stack = L.drop (L.length - st.max_size) := by
  rw [foldl_push_window L st hN hnd hlen hndL]
  have h1 : (st.stack.filter (fun y => decide (y ∉ L))).length + L.length
        - st.max_size
      = (st.stack.filter (fun y => decide (y ∉ L))).length
        + (L.length - st.max_size) := by omega
  rw [h1, List.drop_append]

theorem foldl_push_invariant (L : List String) (st : CtxStack)
    (hnd : st.stack.Nodup) (hlen : st.stack.length ≤ st.max_size) :
    (L.foldl CtxStack.push st).stack.Nodup ∧
      (L.foldl CtxStack.push st).stack.length ≤ st.max_size := by
  induction L generalizing st with
  | nil => exact ⟨hnd, hlen⟩
  | cons x L ih =>
    rw [List.foldl_cons]
    have hmax := push_max_size st x
    have := ih (st.push x) (push_nodup x hnd)
      (by rw [hmax]; exact push_length x hlen)
    rw [hmax] at this
    exact this

/-- C5: starting from any `ContextStack` satisfying its invariants
(`max_size ≥ 1`, no duplicates, length within bound), a push preserves
no-duplicates and the length bound and puts the pushed name at the tail;
pushing a present name relocates it to the tail; pushing onto a full
stack silently evicts the head; the invariants hold after every push of
any sequence; and pushing `max_size + k` distinct names leaves exactly
the `max_size` most recently pushed names, in push order. -/
theorem c5_stack_invariants (st : CtxStack) (x : String) (L : List String)
    (hN : 1 ≤ st.max_size) (hnd : st.stack.Nodup)
    (hlen : st.stack.length ≤ st.max_size) :
    ((st.push x).stack.Nodup ∧ (st.push x).stack.length ≤ st.max_size ∧
        (st.push x).stack.getLast? = some x)
    ∧ (x ∈ st.stack → (st.push x).stack = st.stack.erase x ++ [x])
    ∧ (x ∉ st.stack → st.stack.length = st.max_size →
        (st.push x).stack = st.stack.tail ++ [x])
    ∧ ((L.foldl CtxStack.push st).stack.Nodup ∧
        (L.foldl CtxStack.push st).stack.length ≤ st.max_size)
    ∧ (L.Nodup → st.max_size ≤ L.length →
        (L.foldl CtxStack.push st).stack = L.drop (L.length - st.max_size)) := by
  refine ⟨⟨push_nodup x hnd, push_length x hlen, push_getLast x hN⟩,
    ?_, ?_, foldl_push_invariant L st hnd hlen,
    fun h1 h2 => foldl_push_of_distinct L st hN hnd hlen h1 h2⟩
  · intro hx
    rw [push_stack_eq, if_neg]
    rw [List.length_append, List.length_erase_of_mem hx,
      List.length_singleton]
    have := List.length_pos_of_mem hx
    omega
  · intro hx hfull
    rw [push_stack_eq, List.erase_of_not_mem hx, if_pos]
    · rcases hs : st.stack with _ | ⟨a, b⟩
      · rw [hs] at hfull
        simp at hfull
        omega
      · simp
    · rw [List.length_append, List.length_singleton]
      omega

/-- Witness for C5 at a concrete stack of capacity 2: pushing the three
distinct names `a`, `b`, `c` leaves exactly `[b, c]`. -/
theorem c5_stack_invariants_witness :
    (((CtxStack.mk [] 2).push "a").stack.Nodup ∧
        ((CtxStack.mk [] 2).push "a").stack.length ≤ 2 ∧
        ((CtxStack.mk [] 2).push "a").stack.getLast? = some "a")
    ∧ (["a", "b", "c"].foldl CtxStack.push (CtxStack.mk [] 2)).stack
        = ["b", "c"] := by
  have h := c5_stack_invariants (CtxStack.mk [] 2) "a" ["a", "b", "c"]
    (by decide) (by decide) (by decide)
  refine ⟨h.1, ?_⟩
  have hw := h.2.2.2.2 (by decide) (by decide)
  simpa using hw

theorem mswitch_ok {ps : List PluginH} {s : MState} {name : String}
    {d : CtxDict} (hd : dlookup s.contexts name = some d) :
    mswitch ps s name = .ok
      ({ s with active := some name, stack := switchStack s name },
        notifyHooks (fun p => p.switched) "on_context_switched" ps
          (Ctx.from_dict d)) := by
  unfold mswitch
  rw [hd]

theorem switchStack_max_size (s : MState) (name : String) :
    (switchStack s name).max_size = s.stack.max_size := by
  cases hact : s.active <;> simp [switchStack, hact]
  split <;> simp [push_max_size]

theorem switchStack_self {s : MState} {name : String}
    (h : s.active = some name) : switchStack s name = s.stack := by
  simp [switchStack, h]

/-- C6 (amended): for a dataset whose stack capacity is at least 1 and
nonempty names `A ≠ B` both present, `switch(A)` then `switch(B)` leaves
`A` at the stack's tail; and switching to the already-active context
leaves the stack unchanged.  (For `A = ""` the push is skipped because
the guard tests Python truthiness of the active name — see the
counterexample.) -/
theorem c6_switch_push (ps ps2 : List PluginH) (s : MState) (A B : String)
    (hAB : A ≠ B) (hA : A ≠ "") (hmax : 1 ≤ s.stack.max_size)
    (hAmem : (dlookup s.contexts A).isSome)
    (hBmem : (dlookup s.contexts B).isSome) :
    (∃ r1 r2, mswitch ps s A = .ok r1 ∧ mswitch ps2 r1.1 B = .ok r2 ∧
        r2.1.stack.stack.getLast? = some A)
    ∧ (∀ name r, s.active = some name → mswitch ps s name = .ok r →
        r.1.stack = s.stack) := by
  obtain ⟨dA, hdA⟩ := Option.isSome_iff_exists.mp hAmem
  obtain ⟨dB, hdB⟩ := Option.isSome_iff_exists.mp hBmem
  constructor
  · refine ⟨_, _, mswitch_ok hdA, mswitch_ok (d := dB) hdB, ?_⟩
    have hss : switchStack
        ({ s with active := some A, stack := switchStack s A }) B
        = (switchStack s A).push A := by
      simp [switchStack, hA, hAB]
    dsimp only
    rw [hss]
    exact push_getLast A (by rw [switchStack_max_size]; exact hmax)
  · intro name r hact hok
    cases hd : dlookup s.contexts name with
    | none =>
      unfold mswitch at hok
      rw [hd] at hok
      exact absurd hok (by simp)
    | some d =>
      rw [mswitch_ok hd] at hok
      have hr := Except.ok.inj hok
      rw [← hr]
      exact switchStack_self hact

/-- A minimal stored context document used for concrete datasets. -/
def sampleDict (nm : String) : CtxDict :=
  { name := nm
    description := ""
    state := "active"
    custom_emoji := none
    created_at := ⟨0⟩
    updated_at := ⟨0⟩
    notes := []
    metadata := []
    tags := []
    plugin_data := [] }

/-- Concrete dataset for the C6 witness: contexts `a`, `b`, nothing
active, empty stack of capacity 10. -/
def s6 : MState :=
  { contexts := [("a", sampleDict "a"), ("b", sampleDict "b")]
    active := none
    stack := { stack := [], max_size := 10 } }

/-- Witness for C6 at the concrete dataset `s6`. -/
theorem c6_switch_push_witness :
    (∃ r1 r2, mswitch [] s6 "a" = .ok r1 ∧ mswitch [] r1.1 "b" = .ok r2 ∧
        r2.1.stack.stack.getLast? = some "a")
    ∧ (∀ name r, s6.active = some name → mswitch [] s6 name = .ok r →
        r.1.stack = s6.stack) :=
  c6_switch_push [] [] s6 "a" "b" (by decide) (by decide) (by decide)
    (by decide) (by decide)

/-- Concrete dataset refuting C6 as stated: a context whose name is the
empty string. -/
def s6ce : MState :=
  { contexts := [("", sampleDict ""), ("b", sampleDict "b")]
    active := none
    stack := { stack := [], max_size := 10 } }

/-- Counterexample for C6 as stated: with `A = ""` and `B = "b"` (both
present, distinct, capacity 10), after `switch(A); switch(B)` the stack
tail is `none`, not `some A`: the push guard `if self.data["active"]`
treats the empty-string active name as falsy and skips the push. -/
theorem c6_counterexample :
    ((mswitch [] s6ce "").toOption.bind (fun r1 =>
        (mswitch [] r1.1 "b").toOption.map (fun r2 =>
          r2.1.stack.stack.getLast?))) = some none
    ∧ (dlookup s6ce.contexts "").isSome ∧ (dlookup s6ce.contexts "b").isSome
    ∧ ("" : String) ≠ "b" ∧ 1 ≤ s6ce.stack.max_size
    ∧ (none : Option String) ≠ some "" := by
  refine ⟨rfl, by decide, by decide, by decide, by decide, by decide⟩

theorem spop_of_last {st : CtxStack} {p : String}
    (h : st.stack.getLast? = some p) :
    st.spop = (some p, { st with stack := st.stack.dropLast }) := by
  unfold CtxStack.spop
  rw [h]

theorem spop_of_empty {st : CtxStack} (h : st.stack = []) :
    st.spop = (none, st) := by
  unfold CtxStack.spop
  rw [h]
  rfl

/-- C4 (amended): `pop()` on an empty stack returns `none` and changes
nothing.  Otherwise exactly the tail entry is removed; if it names a live
context with a nonempty name, `pop` switches to it (the nested `switch`
applies its usual stack rule to the already-popped stack) and returns the
context; if the popped name is empty or no longer exists, `pop` returns
`none` after that single attempt, leaving everything but the popped tail
untouched — deeper stack entries are never consulted.  (The claim as
stated omits the nonempty-name condition — see the counterexample.) -/
theorem c4_pop (ps : List PluginH) (s : MState) :
    (s.stack.stack = [] → mpop ps s = (s, none))
    ∧ (∀ p, s.stack.stack.getLast? = some p → p ≠ "" →
        (dlookup s.contexts p).isSome →
        (mpop ps s).1.active = some p ∧
          (mpop ps s).1.contexts = s.contexts ∧
          (mpop ps s).1.stack =
            switchStack
              { s with stack := { s.stack with stack := s.stack.stack.dropLast } }
              p ∧
          (mpop ps s).2.isSome)
    ∧ (∀ p, s.stack.stack.getLast? = some p →
        p = "" ∨ dlookup s.contexts p = none →
        mpop ps s =
          ({ s with stack := { s.stack with stack := s.stack.stack.dropLast } },
            none)) := by
  refine ⟨?_, ?_, ?_⟩
  · intro h
    unfold mpop
    rw [spop_of_empty h]
  · intro p hp hne hlive
    obtain ⟨d, hd⟩ := Option.isSome_iff_exists.mp hlive
    unfold mpop
    rw [spop_of_last hp]
    have hd1 : dlookup
        ({ s with stack := { s.stack with stack := s.stack.stack.dropLast } } :
          MState).contexts p = some d := hd
    simp [hne, hlive, mswitch_ok hd1]
  · intro p hp hcase
    unfold mpop
    rw [spop_of_last hp]
    rcases hcase with h | h
    · subst h
      simp
    · simp [h]

/-- Concrete dataset for the C4 witness: active `b`, stack `[a]`. -/
def s4 : MState :=
  { contexts := [("a", sampleDict "a"), ("b", sampleDict "b")]
    active := some "b"
    stack := { stack := ["a"], max_size := 10 } }

/-- Concrete dataset for the C4 dead-entry case: the stacked name `gone`
no longer exists, and a deeper live entry `a` must not be consulted. -/
def s4dead : MState :=
  { contexts := [("a", sampleDict "a"), ("b", sampleDict "b")]
    active := some "b"
    stack := { stack := ["a", "gone"], max_size := 10 } }

/-- Witness for C4: the empty-stack, live-tail and dead-tail cases each
at a concrete dataset. -/
theorem c4_pop_witness :
    (mpop [] { s4 with stack := { stack := [], max_size := 10 } }
        = ({ s4 with stack := { stack := [], max_size := 10 } }, none))
    ∧ ((mpop [] s4).1.active = some "a" ∧
        (mpop [] s4).1.contexts = s4.contexts ∧
        (mpop [] s4).1.stack =
          switchStack
            { s4 with stack := { s4.stack with stack := s4.stack.stack.dropLast } }
            "a" ∧
        (mpop [] s4).2.isSome)
    ∧ (mpop [] s4dead =
        ({ s4dead with
            stack := { s4dead.stack with stack := s4dead.stack.stack.dropLast } },
          none)) := by
  refine ⟨(c4_pop [] _).1 rfl, ?_, ?_⟩
  · exact (c4_pop [] s4).2.1 "a" rfl (by decide) (by decide)
  · exact (c4_pop [] s4dead).2.2 "gone" rfl (Or.inr rfl)

/-- Concrete dataset refuting C4 as stated: the stack tail `""` names a
live context. -/
def s4ce : MState :=
  { contexts := [("", sampleDict "")]
    active := none
    stack := { stack := [""], max_size := 10 } }

/-- Counterexample for C4 as stated: the popped tail `""` still names a
live context, yet `pop` returns `none` instead of switching to it,
because `if prev:` treats the empty string as falsy. -/
theorem c4_counterexample :
    (mpop [] s4ce).2 = none ∧ (mpop [] s4ce).1.active = none ∧
      s4ce.stack.stack.getLast? = some "" ∧
      (dlookup s4ce.contexts "").isSome := by
  refine ⟨rfl, rfl, rfl, rfl⟩

theorem dlookup_eq_none_of_not_mem {α : Type} {m : List (String × α)}
    {k : String} (h : k ∉ m.map Prod.fst) : dlookup m k = none := by
  induction m with
  | nil => rfl
  | cons p rest ih =>
    simp only [List.map_cons, List.mem_cons] at h
    push_neg at h
    unfold dlookup
    rw [if_neg (fun hpk => h.1 hpk.symm)]
    exact ih h.2

theorem dlookup_ddelete_self {α : Type} {m : List (String × α)} {k : String}
    (hnd : (m.map Prod.fst).Nodup) : dlookup (ddelete m k) k = none := by
  induction m with
  | nil => rfl
  | cons p rest ih =>
    simp only [List.map_cons, List.nodup_cons] at hnd
    by_cases hpk : p.1 = k
    · simp only [ddelete, if_pos hpk]
      exact dlookup_eq_none_of_not_mem (hpk ▸ hnd.1)
    · simp only [ddelete, if_neg hpk, dlookup]
      exact ih hnd.2

theorem dlookup_ddelete_ne {α : Type} {m : List (String × α)} {k j : String}
    (hjk : j ≠ k) : dlookup (ddelete m k) j = dlookup m j := by
  induction m with
  | nil => rfl
  | cons p rest ih =>
    by_cases hpk : p.1 = k
    · have hpj : p.1 ≠ j := fun h => hjk (h ▸ hpk)
      simp only [ddelete, if_pos hpk, dlookup]
      rw [if_neg hpj]
    · simp only [ddelete, if_neg hpk, dlookup]
      by_cases hpj : p.1 = j
      · rw [if_pos hpj, if_pos hpj]
      · rw [if_neg hpj, if_neg hpj]
        exact ih

theorem dlookup_dinsert_self {α : Type} {m : List (String × α)} {k : String}
    {v : α} : dlookup (dinsert m k v) k = some v := by
  induction m with
  | nil => simp [dinsert, dlookup]
  | cons p rest ih =>
    by_cases hpk : p.1 = k
    · simp [dinsert, if_pos hpk, dlookup]
    · simp only [dinsert, if_neg hpk, dlookup]
      exact ih

theorem mdelete_ok {ps : List PluginH} {s : MState} {name : String}
    {d : CtxDict} (hd : dlookup s.contexts name = some d) :
    mdelete ps s name = .ok
      ((if s.active = some name then
          { contexts := ddelete s.contexts name
            active :=
              match (s.stack.spop).1 with
              | some p =>
                if p ≠ "" ∧ (dlookup (ddelete s.contexts name) p).isSome
                then some p
                else (ddelete s.contexts name).head?.map Prod.fst
              | none => (ddelete s.contexts name).head?.map Prod.fst
            stack := (s.stack.spop).2 }
        else
          { contexts := ddelete s.contexts name, active := s.active
            stack := s.stack }),
        (notifyHooks (fun p => p.deleted) "on_context_deleted" ps
          (Ctx.from_dict d)).2) := by
  unfold mdelete
  rw [hd]

/-- C10: deleting a context that is not the active one removes exactly
that entry from the contexts mapping and leaves the active pointer and
the navigation stack unchanged. -/
theorem c10_delete_frame (ps : List PluginH) (s : MState) (name : String)
    (hnd : (s.contexts.map Prod.fst).Nodup)
    (hmem : (dlookup s.contexts name).isSome)
    (hact : s.active ≠ some name) :
    ∃ r, mdelete ps s name = .ok r ∧
      dlookup r.1.contexts name = none ∧
      (∀ k, k ≠ name → dlookup r.1.contexts k = dlookup s.contexts k) ∧
      r.1.active = s.active ∧ r.1.stack = s.stack := by
  obtain ⟨d, hd⟩ := Option.isSome_iff_exists.mp hmem
  refine ⟨_, mdelete_ok hd, ?_⟩
  rw [if_neg hact]
  exact ⟨dlookup_ddelete_self hnd, fun k hk => dlookup_ddelete_ne hk,
    rfl, rfl⟩

/-- Concrete dataset for the C10 witness. -/
def s10 : MState :=
  { contexts := [("a", sampleDict "a"), ("b", sampleDict "b")]
    active := some "b"
    stack := { stack := ["a"], max_size := 10 } }

/-- Witness for C10: deleting the non-active `a` from `s10`. -/
theorem c10_delete_frame_witness :
    ∃ r, mdelete [] s10 "a" = .ok r ∧
      dlookup r.1.contexts "a" = none ∧
      (∀ k, k ≠ "a" → dlookup r.1.contexts k = dlookup s10.contexts k) ∧
      r.1.active = s10.active ∧ r.1.stack = s10.stack :=
  c10_delete_frame [] s10 "a" (by decide) (by decide) (by decide)

/-- C1 (amended): deleting the active context pops at most one stack
entry (the stack always loses exactly its tail); the popped entry is
restored as active only when it is a nonempty name of a still-live
context; in every other case (stack empty, popped name dead or empty)
the active pointer falls back to the first remaining context in
insertion order, or `none` when the dataset became empty.  No further
stack entries are consulted. -/
theorem c1_delete_active (ps : List PluginH) (s : MState) (name : String)
    (hmem : (dlookup s.contexts name).isSome)
    (hact : s.active = some name) :
    ∃ r, mdelete ps s name = .ok r ∧
      r.1.contexts = ddelete s.contexts name ∧
      r.1.stack.stack = s.stack.stack.dropLast ∧
      r.1.stack.max_size = s.stack.max_size ∧
      r.1.active =
        (match s.stack.stack.getLast? with
          | some p =>
            if p ≠ "" ∧ (dlookup (ddelete s.contexts name) p).isSome
            then some p
            else (ddelete s.contexts name).head?.map Prod.fst
          | none => (ddelete s.contexts name).head?.map Prod.fst) := by
  obtain ⟨d, hd⟩ := Option.isSome_iff_exists.mp hmem
  refine ⟨_, mdelete_ok hd, ?_⟩
  rw [if_pos hact]
  rcases hgl : s.stack.stack.getLast? with _ | p
  · have hemp : s.stack.stack = [] := List.getLast?_eq_none_iff.mp hgl
    rw [spop_of_empty hemp]
    refine ⟨rfl, ?_, rfl, rfl⟩
    rw [hemp]
    rfl
  · rw [spop_of_last hgl]
    exact ⟨rfl, rfl, rfl, rfl⟩

/-- Concrete dataset for the C1 witness and counterexample: active `c`,
stack `[a, dead]` whose tail entry `dead` no longer names a context. -/
def s1 : MState :=
  { contexts := [("x", sampleDict "x"), ("a", sampleDict "a"),
      ("c", sampleDict "c")]
    active := some "c"
    stack := { stack := ["a", "dead"], max_size := 10 } }

/-- Witness for C1 (amended) at the concrete dataset `s1`. -/
theorem c1_delete_active_witness :
    ∃ r, mdelete [] s1 "c" = .ok r ∧
      r.1.contexts = ddelete s1.contexts "c" ∧
      r.1.stack.stack = s1.stack.stack.dropLast ∧
      r.1.stack.max_size = s1.stack.max_size ∧
      r.1.active =
        (match s1.stack.stack.getLast? with
          | some p =>
            if p ≠ "" ∧ (dlookup (ddelete s1.contexts "c") p).isSome
            then some p
            else (ddelete s1.contexts "c").head?.map Prod.fst
          | none => (ddelete s1.contexts "c").head?.map Prod.fst) :=
  c1_delete_active [] s1 "c" (by decide) (by decide)

/-- Modelled from the spec's words, for comparison with the code: walk
the entries from the most recent, discarding any that no longer
correspond to a live context, until a live one is found or the entries
are exhausted.  The argument list is most-recent-first. -/
def specPopLive (live : String → Bool) : List String → Option String
  | [] => none
  | p :: rest => if live p then some p else specPopLive live rest

/-- Counterexample for C1 as stated: in `s1`, the most recent stack entry
that still names a live context is `a` (the tail entry `dead` is gone),
so the claim requires active `a` after deleting the active `c`; the code
pops only once, finds `dead`, and falls back to the first remaining
context `x`. -/
theorem c1_counterexample :
    ((mdelete [] s1 "c").toOption.map (fun r => r.1.active))
        = some (some "x")
    ∧ specPopLive
        (fun n => (dlookup (ddelete s1.contexts "c") n).isSome)
        s1.stack.stack.reverse = some "a"
    ∧ (some "x" : Option String) ≠ some "a" := by
  refine ⟨rfl, rfl, by decide⟩

/-- A plugin all of whose hooks are the inherited no-ops. -/
def inertPlugin (nm : String) : PluginH :=
  { pname := nm
    created := fun c => (c, none)
    switched := fun c => (c, none)
    deleted := fun c => (c, none)
    imported := fun c => (c, none)
    stateChanged := fun _ c => (c, none)
    noteAdded := fun _ c => (c, none) }

/-- C2 (amended): only `create` runs its hook before the save — the
persisted entry is the serialization of the hook-mutated context.  For
`switch`, `delete`, `setState`, `addNote` and `importContext` the saved
state is computed before the hooks run and is therefore independent of
the registered plugins, so an in-place mutation made by a hook is not
captured by that operation's save. -/
theorem c2_hook_save_order :
    (∀ ps now s name desc tags md, dlookup s.contexts name = none →
      ∃ r, mcreate ps now s name desc tags md = .ok r ∧
        dlookup r.1.contexts name = some (Ctx.to_dict r.2.1))
    ∧ (∀ ps s name, (mswitch ps s name).map Prod.fst
        = (mswitch [] s name).map Prod.fst)
    ∧ (∀ ps s name, (mdelete ps s name).map Prod.fst
        = (mdelete [] s name).map Prod.fst)
    ∧ (∀ ps now s name st ce, (msetState ps now s name st ce).map Prod.fst
        = (msetState [] now s name st ce).map Prod.fst)
    ∧ (∀ ps now s name text tags,
        (maddNote ps now s name text tags).map Prod.fst
          = (maddNote [] now s name text tags).map Prod.fst)
    ∧ (∀ ps s d ov, (mimportCtx ps s d ov).map Prod.fst
        = (mimportCtx [] s d ov).map Prod.fst) := by
  refine ⟨?_, ?_, ?_, ?_, ?_, ?_⟩
  · intro ps now s name desc tags md hfree
    unfold mcreate
    rw [hfree]
    exact ⟨_, rfl, dlookup_dinsert_self⟩
  · intro ps s name
    unfold mswitch
    cases dlookup s.contexts name <;> rfl
  · intro ps s name
    unfold mdelete
    cases dlookup s.contexts name <;> rfl
  · intro ps now s name st ce
    unfold msetState
    cases dlookup s.contexts name <;> rfl
  · intro ps now s name text tags
    unfold maddNote
    cases dlookup s.contexts name <;> rfl
  · intro ps s d ov
    unfold mimportCtx
    split <;> rfl

/-- Witness for C2 (amended): a fresh create on the concrete dataset
`s6` persists exactly the returned context's serialization. -/
theorem c2_hook_save_order_witness :
    ∃ r, mcreate [] ⟨0⟩ s6 "w" "" [] [] = .ok r ∧
      dlookup r.1.contexts "w" = some (Ctx.to_dict r.2.1) :=
  c2_hook_save_order.1 [] ⟨0⟩ s6 "w" "" [] [] rfl

/-- A plugin whose `on_context_switched` hook mutates the passed context
in place, setting its description. -/
def descHook : PluginH :=
  { inertPlugin "desc" with
      switched := fun c => ({ c with description := "X" }, none) }

/-- Counterexample for C2 as stated: during `switch("a")` the hook's
in-place mutation (description set to `X`) is visible on the returned
context but absent from the saved entry, whose description is still `""`
— the save happened before the hook ran. -/
theorem c2_counterexample :
    ((mswitch [descHook] s6 "a").toOption.map (fun r =>
        (r.2.1.description, (dlookup r.1.contexts "a").map CtxDict.description)))
      = some ("X", some "")
    ∧ ("X" : String) ≠ "" := by
  refine ⟨rfl, by decide⟩

theorem notifyHooks_append (f : PluginH → Ctx → Ctx × Option String)
    (ev : String) :
    ∀ (l r : List PluginH) (c : Ctx),
      notifyHooks f ev (l ++ r) c =
        ((notifyHooks f ev r (notifyHooks f ev l c).1).1,
          (notifyHooks f ev l c).2
            ++ (notifyHooks f ev r (notifyHooks f ev l c).1).2) := by
  intro l
  induction l with
  | nil => intro r c; simp [notifyHooks]
  | cons p rest ih =>
    intro r c
    simp only [List.cons_append, notifyHooks, List.append_eq]
    rw [ih]
    simp [List.append_assoc]

/-- C9: the dispatcher never short-circuits: for any lifecycle selector,
a plugin whose hook raises still lets every later plugin's hook run (the
final context is the one threaded through all of them), and the raise is
converted into a report entry in the middle of the log instead of
propagating; consequently `create` succeeds for a fresh name whatever
the registered plugins do. -/
theorem c9_hook_isolation :
    (∀ (f : PluginH → Ctx → Ctx × Option String) (ev : String)
        (l r : List PluginH) (p : PluginH) (c : Ctx),
      (f p (notifyHooks f ev l c).1).2.isSome →
      (notifyHooks f ev (l ++ p :: r) c).1
          = (notifyHooks f ev r (f p (notifyHooks f ev l c).1).1).1
        ∧ ∃ msg, (notifyHooks f ev (l ++ p :: r) c).2
            = (notifyHooks f ev l c).2
              ++ msg :: (notifyHooks f ev r (f p (notifyHooks f ev l c).1).1).2)
    ∧ (∀ ps now s name desc tags md, dlookup s.contexts name = none →
        (mcreate ps now s name desc tags md).isOk = true) := by
  constructor
  · intro f ev l r p c herr
    obtain ⟨e, he⟩ := Option.isSome_iff_exists.mp herr
    rw [notifyHooks_append]
    constructor
    · simp only [notifyHooks]
    · refine ⟨"Plugin " ++ p.pname ++ " error in " ++ ev ++ ": " ++ e, ?_⟩
      simp only [notifyHooks, he]
      rfl
  · intro ps now s name desc tags md hfree
    unfold mcreate
    rw [hfree]
    rfl

/-- A plugin whose `on_context_created` hook raises. -/
def failPlugin : PluginH :=
  { inertPlugin "boom" with created := fun c => (c, some "kaboom") }

/-- Witness for C9: with plugins `[p1, boom, p2]` where `boom` raises in
`on_context_created`, `p2` still runs and `create` still succeeds on the
concrete dataset `s6`. -/
theorem c9_hook_isolation_witness :
    ((notifyHooks (fun p => p.created) "on_context_created"
          ([inertPlugin "p1"] ++ failPlugin :: [inertPlugin "p2"])
          (Ctx.from_dict (sampleDict "z"))).1
        = (notifyHooks (fun p => p.created) "on_context_created"
            [inertPlugin "p2"]
            ((failPlugin.created
              (notifyHooks (fun p => p.created) "on_context_created"
                [inertPlugin "p1"] (Ctx.from_dict (sampleDict "z"))).1).1)).1
      ∧ ∃ msg, (notifyHooks (fun p => p.created) "on_context_created"
            ([inertPlugin "p1"] ++ failPlugin :: [inertPlugin "p2"])
            (Ctx.from_dict (sampleDict "z"))).2
          = (notifyHooks (fun p => p.created) "on_context_created"
              [inertPlugin "p1"] (Ctx.from_dict (sampleDict "z"))).2
            ++ msg :: (notifyHooks (fun p => p.created) "on_context_created"
              [inertPlugin "p2"]
              ((failPlugin.created
                (notifyHooks (fun p => p.created) "on_context_created"
                  [inertPlugin "p1"] (Ctx.from_dict (sampleDict "z"))).1).1)).2)
    ∧ (mcreate [inertPlugin "p1", failPlugin, inertPlugin "p2"] ⟨0⟩ s6
        "w" "" [] []).isOk = true := by
  refine ⟨c9_hook_isolation.1 (fun p => p.created) "on_context_created"
    [inertPlugin "p1"] [inertPlugin "p2"] failPlugin
    (Ctx.from_dict (sampleDict "z")) rfl,
    c9_hook_isolation.2 [inertPlugin "p1", failPlugin, inertPlugin "p2"]
      ⟨0⟩ s6 "w" "" [] [] rfl⟩

theorem searchContrib_cases (q : String) (c : Ctx) :
    searchContrib q c = [] ∨ searchContrib q c = [c] ∨
      searchContrib q c = [c, c] := by
  unfold searchContrib
  by_cases h1 : matchND q c <;> by_cases h2 : matchNote q c <;>
    by_cases h3 : matchTag q c <;> simp [h1, h2, h3]

theorem searchContrib_eq_nil_iff (q : String) (c : Ctx) :
    searchContrib q c = [] ↔ matchAny q c = false := by
  unfold searchContrib matchAny
  by_cases h1 : matchND q c <;> by_cases h2 : matchNote q c <;>
    by_cases h3 : matchTag q c <;> simp [h1, h2, h3]

theorem mem_searchContrib {q : String} {c x : Ctx}
    (h : x ∈ searchContrib q c) : x = c := by
  rcases searchContrib_cases q c with hc | hc | hc <;> rw [hc] at h <;>
    simp at h <;> exact h

theorem searchContrib_length (q : String) (c : Ctx) :
    (searchContrib q c).length =
      if matchND q c then 1
      else (if matchNote q c then 1 else 0) +
        (if matchTag q c then 1 else 0) := by
  unfold searchContrib
  by_cases h1 : matchND q c <;> by_cases h2 : matchNote q c <;>
    by_cases h3 : matchTag q c <;> simp [h1, h2, h3]

theorem not_mem_flatMap_contrib {q : String} {c : Ctx} {L : List Ctx}
    (h : c ∉ L) : c ∉ L.flatMap (searchContrib q) := by
  intro hmem
  obtain ⟨a, haL, hca⟩ := List.mem_flatMap.mp hmem
  exact h (mem_searchContrib hca ▸ haL)

theorem dedup_flatMap_contrib (q : String) :
    ∀ (L : List Ctx), L.Nodup →
      (L.flatMap (searchContrib q)).dedup = L.filter (matchAny q) := by
  intro L
  induction L with
  | nil => simp
  | cons c L ih =>
    intro hnd
    have hcL : c ∉ L := (List.nodup_cons.mp hnd).1
    have hndL : L.Nodup := (List.nodup_cons.mp hnd).2
    have hnotin : c ∉ L.flatMap (searchContrib q) :=
      not_mem_flatMap_contrib hcL
    rw [List.flatMap_cons]
    rcases hcc : searchContrib q c with _ | ⟨y, ys⟩
    · have hfalse : matchAny q c = false :=
        (searchContrib_eq_nil_iff q c).mp hcc
      rw [List.nil_append, ih hndL, List.filter_cons_of_neg (by simp [hfalse])]
    · have htrue : matchAny q c = true := by
        rcases hb : matchAny q c with _ | _
        · rw [(searchContrib_eq_nil_iff q c).mpr hb] at hcc
          exact absurd hcc (by simp)
        · rfl
      rcases searchContrib_cases q c with hc | hc | hc
      · rw [hc] at hcc
        exact absurd hcc (by simp)
      · rw [hcc] at hc
        rw [hc, List.singleton_append, List.dedup_cons_of_not_mem hnotin,
          ih hndL, List.filter_cons_of_pos htrue]
      · rw [hcc] at hc
        rw [hc, List.cons_append, List.cons_append, List.nil_append,
          List.dedup_cons_of_mem (List.mem_cons_self c _),
          List.dedup_cons_of_not_mem hnotin, ih hndL,
          List.filter_cons_of_pos htrue]

theorem count_searchContrib_self (q : String) (c : Ctx) :
    (searchContrib q c).count c = (searchContrib q c).length := by
  rcases searchContrib_cases q c with hc | hc | hc <;> rw [hc] <;> simp

theorem count_flatMap_contrib (q : String) :
    ∀ (L : List Ctx) (c : Ctx), L.Nodup → c ∈ L →
      (L.flatMap (searchContrib q)).count c = (searchContrib q c).length := by
  intro L
  induction L with
  | nil => intro c _ h; exact absurd h (by simp)
  | cons a L ih =>
    intro c hnd hmem
    have haL : a ∉ L := (List.nodup_cons.mp hnd).1
    have hndL : L.Nodup := (List.nodup_cons.mp hnd).2
    rw [List.flatMap_cons, List.count_append]
    rcases List.mem_cons.mp hmem with rfl | hcL
    · rw [count_searchContrib_self,
        List.count_eq_zero.mpr (not_mem_flatMap_contrib haL), Nat.add_zero]
    · have hca : c ≠ a := fun h => haL (h ▸ hcL)
      have hzero : (searchContrib q a).count c = 0 :=
        List.count_eq_zero.mpr (fun h => hca (mem_searchContrib h))
      rw [hzero, Nat.zero_add]
      exact ih c hndL hcL

theorem insertByUpdated_perm (c : Ctx) :
    ∀ (l : List Ctx), (insertByUpdated c l).Perm (c :: l) := by
  intro l
  induction l with
  | nil => exact List.Perm.refl _
  | cons d ds ih =>
    unfold insertByUpdated
    split
    · exact List.Perm.refl _
    · exact (ih.cons d).trans (List.Perm.swap c d ds)

theorem foldl_insert_perm :
    ∀ (l acc : List Ctx),
      (l.foldl (fun a c => insertByUpdated c a) acc).Perm (acc ++ l) := by
  intro l
  induction l with
  | nil => intro acc; simp
  | cons c l ih =>
    intro acc
    rw [List.foldl_cons]
    exact (ih (insertByUpdated c acc)).trans
      (((insertByUpdated_perm c acc).append_right l).trans
        List.perm_middle.symm)

theorem sortByUpdated_perm (l : List Ctx) : (sortByUpdated l).Perm l := by
  unfold sortByUpdated
  simpa using foldl_insert_perm l []

theorem mlist_nodup {s : MState}
    (hnames : (s.contexts.map (fun p => p.2.name)).Nodup) :
    (mlist s).Nodup := by
  have h1 : List.map Ctx.name (s.contexts.map (fun p => Ctx.from_dict p.2))
      = s.contexts.map (fun p => p.2.name) := by
    rw [List.map_map]
    rfl
  have h2 : (s.contexts.map (fun p => Ctx.from_dict p.2)).Nodup :=
    List.Nodup.of_map Ctx.name (h1 ▸ hnames)
  exact (sortByUpdated_perm _).nodup_iff.mpr h2

/-- C3 (amended): `search(q)` contains exactly the contexts matching `q`
case-insensitively in name, description, a note or a tag, in `list()`'s
order restricted to the matches (the deduplicated result equals the
filtered list); each match by name/description appears exactly once, but
a context matching only via both a note and a tag is appended twice (the
note loop's `break` does not skip the tag loop). -/
theorem c3_search (q : String) (s : MState)
    (hnames : (s.contexts.map (fun p => p.2.name)).Nodup) :
    (msearch q s).dedup = (mlist s).filter (matchAny q)
    ∧ (∀ c ∈ mlist s, (msearch q s).count c =
        (if matchND q c then 1
          else (if matchNote q c then 1 else 0) +
            (if matchTag q c then 1 else 0)))
    ∧ (∀ c, c ∈ msearch q s ↔ c ∈ mlist s ∧ matchAny q c = true) := by
  have hnd := mlist_nodup hnames
  refine ⟨dedup_flatMap_contrib q (mlist s) hnd, ?_, ?_⟩
  · intro c hc
    rw [show msearch q s = (mlist s).flatMap (searchContrib q) from rfl,
      count_flatMap_contrib q (mlist s) c hnd hc, searchContrib_length]
  · intro c
    constructor
    · intro hmem
      obtain ⟨a, ha, hca⟩ := List.mem_flatMap.mp hmem
      obtain rfl := mem_searchContrib hca
      refine ⟨ha, ?_⟩
      rcases hb : matchAny q c with _ | _
      · rw [(searchContrib_eq_nil_iff q c).mpr hb] at hca
        exact absurd hca (by simp)
      · rfl
    · rintro ⟨hmem, hmatch⟩
      refine List.mem_flatMap.mpr ⟨c, hmem, ?_⟩
      rcases searchContrib_cases q c with hc | hc | hc
      · rw [(searchContrib_eq_nil_iff q c).mp hc] at hmatch
        exact absurd hmatch (by simp)
      · simp [hc]
      · simp [hc]

/-- Witness for C3 (amended) with query `a` on the concrete dataset
`s6`. -/
theorem c3_search_witness :
    ((msearch "a" s6).dedup = (mlist s6).filter (matchAny "a"))
    ∧ (∀ c ∈ mlist s6, (msearch "a" s6).count c =
        (if matchND "a" c then 1
          else (if matchNote "a" c then 1 else 0) +
            (if matchTag "a" c then 1 else 0)))
    ∧ (∀ c, c ∈ msearch "a" s6 ↔ c ∈ mlist s6 ∧ matchAny "a" c = true) :=
  c3_search "a" s6 (by decide)

/-- A stored context matching a query `q` via both a note text and a
tag, but not via name or description. -/
def qDict : CtxDict :=
  { sampleDict "n" with notes := [⟨⟨0⟩, "q", []⟩], tags := ["q"] }

/-- Concrete dataset refuting C3 as stated. -/
def s3ce : MState :=
  { contexts := [("n", qDict)]
    active := none
    stack := { stack := [], max_size := 10 } }

/-- Counterexample for C3 as stated: the single context of `s3ce`
matches `q` through a note and through a tag, and `search` appends it
twice, so the result does not contain each matching context exactly
once. -/
theorem c3_counterexample :
    msearch "q" s3ce = [Ctx.from_dict qDict, Ctx.from_dict qDict]
    ∧ mlist s3ce = [Ctx.from_dict qDict]
    ∧ (msearch "q" s3ce).count (Ctx.from_dict qDict) = 2
    ∧ (mlist s3ce).count (Ctx.from_dict qDict) = 1 := by
  refine ⟨rfl, rfl, rfl, rfl⟩
